import Mathlib

/-!
Shallow embedding of the `ebs` evidence-based-scheduling core
(`ebslib/date.py`, `ebslib/estimator.py`, `ebslib/task.py` and the
report loop of `ebslib/command.py`) and proofs about it.

Modelling conventions:
- A calendar date is an integer: the number of days since an epoch
  chosen to be a Monday, so that `weekday d = d % 7` matches Python's
  `date.weekday()` (0 = Monday .. 6 = Sunday).
- Hours, costs and velocities are rationals.
- `datetime.timedelta` values are integers (whole days); the only
  operations the source performs on them are subtraction of dates,
  `abs`, comparison and truth-testing, all of which the integer model
  supports.  A Python `timedelta` is falsy exactly when it is zero.
- Python exceptions become `Except` / `Option` results.
- The unbounded recursion of `_add_events` is given explicit fuel;
  `none` means the fuel ran out (the termination theorem shows enough
  fuel always exists).
-/

namespace Ebs

/-- Errors raised by the date engine: `invalidHPD` models the
`ValueError` for a non-positive `hours_per_day`, `invalidCalendar` the
`ValueError` raised by `work_date_ceil`. -/
inductive DateErr where
  | invalidHPD
  | invalidCalendar
deriving DecidableEq, Repr

/-- Python `%` on rationals with the semantics of `float.__mod__`:
for a positive modulus the result lies in `[0, b)`. -/
def qmod (a b : ℚ) : ℚ := a - b * ⌊a / b⌋

/-- Python 2 `round(x, 3)` on the non-negative values the source feeds
it (where round-half-away-from-zero and round-half-up agree). -/
def round3 (x : ℚ) : ℚ := (round (x * 1000) : ℤ) / 1000

/-- Scan loop of `work_date_ceil`: starting at offset `i`, try at most
`n` consecutive days, returning the first whose weekday is in
`work_days` and which is not a holiday. -/
def wdc_scan (date : ℤ) (work_days holidays : List ℤ) : ℕ → ℕ → Option ℤ
  | 0, _ => none
  | n + 1, i =>
    let new_date := date + (i : ℤ)
    if new_date % 7 ∈ work_days ∧ new_date ∉ holidays then some new_date
    else wdc_scan date work_days holidays n (i + 1)

/-- Embeds `date.work_date_ceil`: the next work date on or after
`date`, scanning at most `7 + len(holidays)` days; `none` models the
`ValueError("Argument 'work_days' is invalid.")`. -/
def work_date_ceil (date : ℤ) (work_days holidays : List ℤ) : Option ℤ :=
  wdc_scan date work_days holidays (7 + holidays.length) 0

/-- Iteration loop of `apply_work_date_interval`: `n` times, step one
calendar day forward and snap to the next work date. -/
def awdi_loop (work_days holidays : List ℤ) : ℕ → ℤ → Option ℤ
  | 0, cur => some cur
  | n + 1, cur =>
    match work_date_ceil (cur + 1) work_days holidays with
    | none => none
    | some next => awdi_loop work_days holidays n next

/-- Embeds `date.apply_work_date_interval`: snap `start` to a work
date, consume one interval day if the snap moved, then advance
`ceil(interval)` work days (Python's `range` of a negative number is
empty, hence `Int.toNat`). -/
def apply_work_date_interval
    (work_days : List ℤ) (start : ℤ) (interval : ℚ) (holidays : List ℤ) :
    Option ℤ :=
  match work_date_ceil start work_days holidays with
  | none => none
  | some cur =>
    let interval := if cur = start then interval else interval - 1
    awdi_loop work_days holidays ⌈interval⌉.toNat cur

/-- Python's default `work_days=frozenset([0, 1, 2, 3, 4])`. -/
def defaultWorkDays : List ℤ := [0, 1, 2, 3, 4]

/-- Embeds the event-free body of `date.ship_date` (the code that runs
before the `if events:` branch, which is also exactly what the nested
call inside `_add_events` executes, since that call passes no
events). -/
def ship_date_core
    (work_days : List ℤ) (hours hours_per_day : ℚ)
    (start_date : ℤ) (holidays : List ℤ) :
    Except DateErr (ℤ × ℚ) :=
  if hours_per_day ≤ 0 then .error .invalidHPD
  else
    let hours := max hours 0
    let days := hours / hours_per_day
    let remaining :=
      round3 (qmod (hours_per_day - qmod hours hours_per_day) hours_per_day)
    match apply_work_date_interval work_days start_date days holidays with
    | none => .error .invalidCalendar
    | some ship => .ok (ship, remaining)

/-- Embeds `task.Event`: a date and an absolute cost. -/
structure Event where
  date : ℤ
  cost : ℚ
deriving DecidableEq, Repr

/-- Embeds `date._add_events` with explicit fuel.  Faithful detail:
the nested `ship_date` call passes `hours`, `hours_per_day`,
`start_date` and `holidays` but NOT `work_days`, so it runs with the
default Monday-to-Friday work-days set. -/
def add_events
    (events : List Event) (hpd : ℚ) (holidays : List ℤ) :
    ℕ → ℤ → ℤ → ℚ → Option (Except DateErr (ℤ × ℚ))
  | 0, _, _, _ => none
  | fuel + 1, start, stop, hours_remaining =>
    let event_hours :=
      ((events.filter fun e => start < e.date ∧ e.date ≤ stop).map
        Event.cost).sum
    match ship_date_core defaultWorkDays (event_hours - hours_remaining)
        hpd stop holidays with
    | .error err => some (.error err)
    | .ok (new_end, new_hours_remaining) =>
      if new_end = stop then some (.ok (stop, new_hours_remaining))
      else add_events events hpd holidays fuel stop new_end
        new_hours_remaining

/-- Embeds `date.ship_date` (fuelled through `add_events`).  The
Python truth test `if events:` is emptiness of the sequence. -/
def ship_date
    (fuel : ℕ) (work_days : List ℤ) (hours : ℚ) (events : List Event)
    (hours_per_day : ℚ) (start_date : ℤ) (holidays : List ℤ) :
    Option (Except DateErr (ℤ × ℚ)) :=
  match ship_date_core work_days hours hours_per_day start_date holidays with
  | .error err => some (.error err)
  | .ok (ship, remaining) =>
    if events = [] then some (.ok (ship, remaining))
    else add_events events hours_per_day holidays fuel start_date ship
      remaining

/-! ### The estimator (`ebslib/estimator.py`, `ebslib/task.py`) -/

/-- Embeds the `task.Task` fields the estimator reads.  `priority` and
`date` are optional (`None` becomes `none`); costs are rationals. -/
structure Task where
  priority : Option ℤ := none
  estimate : ℚ := 0
  date : Option ℤ := none
  actual : ℚ := 0
deriving DecidableEq, Repr

/-- Embeds `Task.completed`: the Python property returns `self.actual`
itself, whose truth value is `actual ≠ 0`. -/
def Task.completed (t : Task) : Bool := t.actual ≠ 0

/-- Embeds the staleness test `max_age and t.date and _today - t.date >
abs(max_age)` from `Estimator.velocities`, including Python truthiness:
`None` and a zero `timedelta` are both falsy, and a `date` is always
truthy. -/
def stale (today : ℤ) (max_age : Option ℤ) (t : Task) : Bool :=
  match max_age, t.date with
  | some a, some d => a ≠ 0 && today - d > |a|
  | _, _ => false

/-- Embeds `Estimator.velocities`: `estimate / actual` over the
completed tasks that pass the staleness filter and have truthy
(non-zero) `estimate` and `actual`, in task order. -/
def velocities (today : ℤ) (tasks : List Task) (max_age : Option ℤ) :
    List ℚ :=
  ((tasks.filter Task.completed).filter fun t =>
      !stale today max_age t && t.estimate ≠ 0 && t.actual ≠ 0).map
    fun t => t.estimate / t.actual

/-- Exceptions surfaced by the estimator: `noHistory` models
`NoHistoryError` (which carries the estimator's name in the source),
`zeroDivision` an uncaught Python `ZeroDivisionError`. -/
inductive PyErr where
  | noHistory
  | zeroDivision
deriving DecidableEq, Repr

/-- Embeds `Estimator.min_velocity` (`_fn_velocity` applied to `min`):
Python's `min` raises exactly on an empty sequence, and the bare
`except:` converts that to `NoHistoryError`. -/
def min_velocity (today : ℤ) (tasks : List Task) (max_age : Option ℤ) :
    Except PyErr ℚ :=
  match velocities today tasks max_age with
  | [] => .error .noHistory
  | v :: vs => .ok (vs.foldl min v)

/-- Embeds `Estimator.max_velocity`. -/
def max_velocity (today : ℤ) (tasks : List Task) (max_age : Option ℤ) :
    Except PyErr ℚ :=
  match velocities today tasks max_age with
  | [] => .error .noHistory
  | v :: vs => .ok (vs.foldl max v)

/-- Embeds `Estimator.mean_velocity` (`sum(x) / len(x)`): the division
raises exactly when the sequence is empty, converted to
`NoHistoryError` by `_fn_velocity`. -/
def mean_velocity (today : ℤ) (tasks : List Task) (max_age : Option ℤ) :
    Except PyErr ℚ :=
  match velocities today tasks max_age with
  | [] => .error .noHistory
  | v :: vs => .ok ((v :: vs).sum / (v :: vs).length)

/-- Embeds `Estimator.stddev_velocity` up to the final `math.sqrt`: the
returned value is the radicand `sum((x - mu)^2 for x in velocities) /
N` (`math.sqrt` of this non-negative quantity raises no exception, so
the error behaviour is unaffected by dropping it).  Faithful details:
the method is NOT wrapped in `_fn_velocity`, and `mu` comes from
`self.mean_velocity()` called WITHOUT the filter arguments. -/
def stddev_velocity (today : ℤ) (tasks : List Task) (max_age : Option ℤ) :
    Except PyErr ℚ :=
  let vels := velocities today tasks max_age
  let N := vels.length
  match mean_velocity today tasks none with
  | .error e => .error e
  | .ok mu =>
    if N = 0 then .error .zeroDivision
    else .ok ((vels.map fun x => (x - mu) ^ 2).sum / (N : ℚ))

/-- Embeds the priority test `priority and t.priority and t.priority >
priority` from `Estimator.simulate_future`, with Python truthiness:
`None` and `0` are falsy. -/
def priority_excluded (priority : Option ℤ) (t : Task) : Bool :=
  match priority, t.priority with
  | some pr, some tp => pr ≠ 0 && tp ≠ 0 && tp > pr
  | _, _ => false

/-- Embeds `Estimator.simulate_future` with `project=None` (its value
at every call site in the repository; the `Task` class defines no
`project` attribute, so any other value would crash).  The random
draws of `random.choice` are supplied by the oracle `pick`: the draw
for the `i`-th surviving task is the velocity at index `pick i`
(reduced mod the length).  `random.choice` on an empty sequence raises
`IndexError`, which the method converts to `NoHistoryError`; it is
evaluated once per surviving pending task. -/
def simulate_future (today : ℤ) (tasks : List Task)
    (max_age priority : Option ℤ) (pick : ℕ → ℕ) :
    Except PyErr (List ℚ) :=
  let vels := velocities today tasks max_age
  let chosen := (tasks.filter fun t => !t.completed).filter
    fun t => !priority_excluded priority t
  if chosen ≠ [] ∧ vels = [] then .error .noHistory
  else .ok (chosen.enum.map
    fun p => p.2.estimate / vels.getD (pick p.1 % vels.length) 0)

/-! ### The report loop (`ebslib/command.py`, `Estimate._run`) -/

/-- Embeds Python 2's `xrange(start, stop, step)` for a positive step:
`start, start + step, ...` while below `stop`. -/
def xrange (start stop step : ℕ) : List ℕ :=
  List.range' start ((stop - start + step - 1) / step) step

/-- Embeds the percentile loop of `Estimate._run`: for `i` in
`xrange(10^(exp-1) - 1, 10^exp, 10^(exp-1))` emit the row
`((i+1) / 10^(exp-2) - 1, sorted_futures[i][0])`, where Python 2 `/`
on integers is floor division and `dates` is the date column of the
sorted futures. -/
def estimate_rows (exponent : ℕ) (dates : List ℤ) : List (ℤ × ℤ) :=
  (xrange (10 ^ (exponent - 1) - 1) (10 ^ exponent) (10 ^ (exponent - 1))).map
    fun (i : ℕ) => (((i : ℤ) + 1) / (10 ^ (exponent - 2) : ℤ) - 1,
      dates.getD i 0)

/-! ### Claim-stated reference variants

The following definitions follow the words of spec sentences rather
than the source; each is compared against the faithful embedding
above. -/

/-- Reference variant of `_add_events` written from the spec sentence
that each recursive call passes along the same work-days
configuration: identical to `add_events` except that the nested
`ship_date` call receives the caller's `work_days` instead of the
default. -/
def add_events_claimed
    (work_days : List ℤ) (events : List Event) (hpd : ℚ)
    (holidays : List ℤ) :
    ℕ → ℤ → ℤ → ℚ → Option (Except DateErr (ℤ × ℚ))
  | 0, _, _, _ => none
  | fuel + 1, start, stop, hours_remaining =>
    let event_hours :=
      ((events.filter fun e => start < e.date ∧ e.date ≤ stop).map
        Event.cost).sum
    match ship_date_core work_days (event_hours - hours_remaining)
        hpd stop holidays with
    | .error err => some (.error err)
    | .ok (new_end, new_hours_remaining) =>
      if new_end = stop then some (.ok (stop, new_hours_remaining))
      else add_events_claimed work_days events hpd holidays fuel stop
        new_end new_hours_remaining

/-- Reference variant of `ship_date` built on `add_events_claimed`. -/
def ship_date_claimed
    (fuel : ℕ) (work_days : List ℤ) (hours : ℚ) (events : List Event)
    (hours_per_day : ℚ) (start_date : ℤ) (holidays : List ℤ) :
    Option (Except DateErr (ℤ × ℚ)) :=
  match ship_date_core work_days hours hours_per_day start_date holidays with
  | .error err => some (.error err)
  | .ok (ship, remaining) =>
    if events = [] then some (.ok (ship, remaining))
    else add_events_claimed work_days events hours_per_day holidays fuel
      start_date ship remaining

/-- Reference variant of `velocities` written from the claim's words:
ratio for exactly the tasks with `actual > 0` and `estimate > 0`,
excluding — whenever `maxAge` is GIVEN and the task has a date — tasks
with `today - date > abs(maxAge)`. -/
def velocities_claimed (today : ℤ) (tasks : List Task)
    (max_age : Option ℤ) : List ℚ :=
  (tasks.filter fun t =>
      decide (0 < t.actual) && decide (0 < t.estimate) &&
      !(match max_age, t.date with
        | some a, some d => decide (today - d > |a|)
        | _, _ => false)).map
    fun t => t.estimate / t.actual

/-- Reference variant of the priority exclusion written from the
claim's words: a pending task is excluded iff it has a priority set
and that priority is numerically greater than the threshold. -/
def priority_excluded_claimed (priority : Option ℤ) (t : Task) : Bool :=
  match priority, t.priority with
  | some pr, some tp => tp > pr
  | _, _ => false

/-- Amended variant of `velocities_claimed`: the age exclusion applies
only when the given `maxAge` is also non-zero (a zero `timedelta` is
falsy in Python, so the source skips the filter entirely for it). -/
def velocities_amended (today : ℤ) (tasks : List Task)
    (max_age : Option ℤ) : List ℚ :=
  (tasks.filter fun t =>
      decide (0 < t.actual) && decide (0 < t.estimate) &&
      !(match max_age, t.date with
        | some a, some d => a ≠ 0 && decide (today - d > |a|)
        | _, _ => false)).map
    fun t => t.estimate / t.actual

/-! ### Lemmas about the work-date scan -/

theorem wdc_scan_le {d : ℤ} {wd hol : List ℤ} :
    ∀ {n i : ℕ} {d2 : ℤ}, wdc_scan d wd hol n i = some d2 → d + i ≤ d2 := by
  intro n
  induction n with
  | zero => intro i d2 h; simp [wdc_scan] at h
  | succ n ih =>
    intro i d2 h
    simp only [wdc_scan] at h
    split at h
    · cases h; exact le_refl _
    · have := ih h
      push_cast at this ⊢
      omega

theorem wdc_scan_qualifies {d : ℤ} {wd hol : List ℤ} :
    ∀ {n i : ℕ} {d2 : ℤ}, wdc_scan d wd hol n i = some d2 →
      d2 % 7 ∈ wd ∧ d2 ∉ hol := by
  intro n
  induction n with
  | zero => intro i d2 h; simp [wdc_scan] at h
  | succ n ih =>
    intro i d2 h
    simp only [wdc_scan] at h
    split at h
    · cases h; assumption
    · exact ih h

theorem wdc_scan_self {d : ℤ} {wd hol : List ℤ} {n i : ℕ}
    (h1 : (d + (i : ℤ)) % 7 ∈ wd) (h2 : (d + (i : ℤ)) ∉ hol) :
    wdc_scan d wd hol (n + 1) i = some (d + (i : ℤ)) := by
  simp only [wdc_scan]
  rw [if_pos ⟨h1, h2⟩]

theorem wdc_scan_isSome {d : ℤ} {wd hol : List ℤ} :
    ∀ {n i j : ℕ}, j < n → (d + (i : ℤ) + (j : ℤ)) % 7 ∈ wd →
      (d + (i : ℤ) + (j : ℤ)) ∉ hol →
      ∃ d2, wdc_scan d wd hol n i = some d2 := by
  intro n
  induction n with
  | zero => intro i j hj _ _; omega
  | succ n ih =>
    intro i j hj hmem hhol
    simp only [wdc_scan]
    split
    · exact ⟨_, rfl⟩
    · rename_i hcond
      match j, hj with
      | 0, _ =>
        simp only [Nat.cast_zero, add_zero] at hmem hhol
        exact absurd ⟨hmem, hhol⟩ hcond
      | j + 1, hj =>
        refine ih (i := i + 1) (j := j) (by omega) ?_ ?_ <;>
          · push_cast
            push_cast at hmem hhol
            try rw [show d + (i + 1) + j = d + i + (j + 1) by ring]
            assumption

theorem work_date_ceil_le {d : ℤ} {wd hol : List ℤ} {d2 : ℤ}
    (h : work_date_ceil d wd hol = some d2) : d ≤ d2 := by
  have := wdc_scan_le h
  push_cast at this
  omega

theorem work_date_ceil_qualifies {d : ℤ} {wd hol : List ℤ} {d2 : ℤ}
    (h : work_date_ceil d wd hol = some d2) : d2 % 7 ∈ wd ∧ d2 ∉ hol :=
  wdc_scan_qualifies h

theorem work_date_ceil_self {d : ℤ} {wd hol : List ℤ}
    (h1 : d % 7 ∈ wd) (h2 : d ∉ hol) :
    work_date_ceil d wd hol = some d := by
  have : work_date_ceil d wd hol = wdc_scan d wd hol (6 + hol.length + 1) 0 := by
    simp only [work_date_ceil]
    congr 1
    omega
  rw [this, wdc_scan_self] <;> simp [h1, h2]

/-! ### Lemmas about the advance loop -/

theorem awdi_loop_le {wd hol : List ℤ} :
    ∀ {n : ℕ} {c d : ℤ}, awdi_loop wd hol n c = some d → c ≤ d := by
  intro n
  induction n with
  | zero => intro c d h; simp only [awdi_loop, Option.some.injEq] at h; omega
  | succ n ih =>
    intro c d h
    simp only [awdi_loop] at h
    split at h
    · exact absurd h (by simp)
    · rename_i next hnext
      have h1 := work_date_ceil_le hnext
      have h2 := ih h
      omega

theorem awdi_loop_qualifies {wd hol : List ℤ} :
    ∀ {n : ℕ} {c d : ℤ}, awdi_loop wd hol n c = some d →
      c % 7 ∈ wd ∧ c ∉ hol → d % 7 ∈ wd ∧ d ∉ hol := by
  intro n
  induction n with
  | zero =>
    intro c d h hq
    simp only [awdi_loop, Option.some.injEq] at h
    exact h ▸ hq
  | succ n ih =>
    intro c d h _
    simp only [awdi_loop] at h
    split at h
    · exact absurd h (by simp)
    · rename_i next hnext
      exact ih h (work_date_ceil_qualifies hnext)

theorem awdi_loop_mono {wd hol : List ℤ} :
    ∀ {n1 n2 : ℕ} {c d1 d2 : ℤ}, n1 ≤ n2 →
      awdi_loop wd hol n1 c = some d1 → awdi_loop wd hol n2 c = some d2 →
      d1 ≤ d2 := by
  intro n1
  induction n1 with
  | zero =>
    intro n2 c d1 d2 _ h1 h2
    simp only [awdi_loop, Option.some.injEq] at h1
    have := awdi_loop_le h2
    omega
  | succ n ih =>
    intro n2 c d1 d2 hle h1 h2
    match n2, hle with
    | n2 + 1, hle =>
      simp only [awdi_loop] at h1 h2
      split at h1
      · exact absurd h1 (by simp)
      · rename_i next hnext
        rw [hnext] at h2
        exact ih (by omega) h1 h2

/-! ### Lemmas about `apply_work_date_interval` -/

theorem apply_work_date_interval_le {wd hol : List ℤ} {s : ℤ} {i : ℚ} {d : ℤ}
    (h : apply_work_date_interval wd s i hol = some d) : s ≤ d := by
  simp only [apply_work_date_interval] at h
  split at h
  · exact absurd h (by simp)
  · rename_i cur hcur
    have h1 := work_date_ceil_le hcur
    have h2 := awdi_loop_le h
    omega

/-- First part of the invariant claim: a normal return of
`apply_work_date_interval` is a qualifying work day. -/
theorem apply_work_date_interval_qualifies {wd hol : List ℤ} {s : ℤ} {i : ℚ}
    {d : ℤ} (h : apply_work_date_interval wd s i hol = some d) :
    d % 7 ∈ wd ∧ d ∉ hol := by
  simp only [apply_work_date_interval] at h
  split at h
  · exact absurd h (by simp)
  · rename_i cur hcur
    exact awdi_loop_qualifies h (work_date_ceil_qualifies hcur)

theorem apply_work_date_interval_nonpos {wd hol : List ℤ} {s : ℤ} {i : ℚ}
    (hi : i ≤ 0) :
    apply_work_date_interval wd s i hol = work_date_ceil s wd hol := by
  simp only [apply_work_date_interval]
  split
  · rename_i heq
    exact heq.symm
  · rename_i cur hcur
    split
    · rename_i hcs
      rw [show ⌈i⌉.toNat = 0 by
        simp only [Int.toNat_eq_zero]
        exact Int.ceil_le.2 (by exact_mod_cast hi)]
      simp [awdi_loop, hcs, hcur]
    · rw [show ⌈i - 1⌉.toNat = 0 by
        simp only [Int.toNat_eq_zero]
        refine Int.ceil_le.2 ?_
        push_cast
        linarith]
      simp [awdi_loop, hcur]

/-- Monotonicity of `apply_work_date_interval` in the interval. -/
theorem apply_work_date_interval_mono {wd hol : List ℤ} {s : ℤ} {i1 i2 : ℚ}
    {d1 d2 : ℤ} (hi : i1 ≤ i2)
    (h1 : apply_work_date_interval wd s i1 hol = some d1)
    (h2 : apply_work_date_interval wd s i2 hol = some d2) : d1 ≤ d2 := by
  simp only [apply_work_date_interval] at h1 h2
  split at h1
  · exact absurd h1 (by simp)
  · rename_i cur hcur
    rw [hcur] at h2
    refine awdi_loop_mono ?_ h1 h2
    split
    · exact Int.toNat_le_toNat (Int.ceil_le_ceil hi)
    · exact Int.toNat_le_toNat (Int.ceil_le_ceil (by linarith))

/-! ### Lemmas about `qmod` and `round3` -/

theorem qmod_nonneg {a b : ℚ} (hb : 0 < b) : 0 ≤ qmod a b := by
  have h1 : ((⌊a / b⌋ : ℤ) : ℚ) ≤ a / b := Int.floor_le _
  have h2 : b * ((⌊a / b⌋ : ℤ) : ℚ) ≤ b * (a / b) :=
    mul_le_mul_of_nonneg_left h1 (le_of_lt hb)
  have h3 : b * (a / b) = a := by
    field_simp
  simp only [qmod]
  linarith

theorem qmod_zero_left {b : ℚ} : qmod 0 b = 0 := by
  simp [qmod]

theorem qmod_self {b : ℚ} : qmod b b = 0 := by
  rcases eq_or_ne b 0 with h | h
  · simp [qmod, h]
  · simp [qmod, div_self h]

theorem round3_zero : round3 0 = 0 := by
  simp [round3]

theorem round3_nonneg {x : ℚ} (hx : 0 ≤ x) : 0 ≤ round3 x := by
  have h1 : (0 : ℤ) ≤ round (x * 1000) := by
    rw [round_eq]
    refine Int.floor_nonneg.2 ?_
    positivity
  simp only [round3]
  positivity

/-! ### Lemmas about `ship_date_core` -/

theorem ship_date_core_ok {wd hol : List ℤ} {hours hpd : ℚ} {s d : ℤ} {r : ℚ}
    (h : ship_date_core wd hours hpd s hol = .ok (d, r)) :
    0 < hpd ∧
    apply_work_date_interval wd s (max hours 0 / hpd) hol = some d ∧
    r = round3 (qmod (hpd - qmod (max hours 0) hpd) hpd) := by
  simp only [ship_date_core] at h
  split at h
  · exact absurd h (by simp)
  · rename_i hpos
    split at h
    · exact absurd h (by simp)
    · rename_i ship happly
      obtain ⟨rfl, rfl⟩ : ship = d ∧
          round3 (qmod (hpd - qmod (max hours 0) hpd) hpd) = r := by
        simpa using h
      exact ⟨by linarith [not_le.mp hpos], happly, rfl⟩

theorem ship_date_core_ok_qualifies {wd hol : List ℤ} {hours hpd : ℚ}
    {s d : ℤ} {r : ℚ} (h : ship_date_core wd hours hpd s hol = .ok (d, r)) :
    d % 7 ∈ wd ∧ d ∉ hol :=
  apply_work_date_interval_qualifies (ship_date_core_ok h).2.1

theorem ship_date_core_ok_le {wd hol : List ℤ} {hours hpd : ℚ}
    {s d : ℤ} {r : ℚ} (h : ship_date_core wd hours hpd s hol = .ok (d, r)) :
    s ≤ d :=
  apply_work_date_interval_le (ship_date_core_ok h).2.1

theorem ship_date_core_ok_rem_nonneg {wd hol : List ℤ} {hours hpd : ℚ}
    {s d : ℤ} {r : ℚ} (h : ship_date_core wd hours hpd s hol = .ok (d, r)) :
    0 ≤ r := by
  obtain ⟨hpos, -, hr⟩ := ship_date_core_ok h
  rw [hr]
  exact round3_nonneg (qmod_nonneg hpos)

/-- With non-positive hours (clamped to zero) and a valid calendar, the
core computation returns the snapped start date and zero remaining
hours. -/
theorem ship_date_core_nonpos {wd hol : List ℤ} {hours hpd : ℚ} {s d : ℤ}
    (hh : hours ≤ 0) (hpos : 0 < hpd)
    (hwdc : work_date_ceil s wd hol = some d) :
    ship_date_core wd hours hpd s hol = .ok (d, 0) := by
  have hmax : max hours 0 = 0 := max_eq_right hh
  simp only [ship_date_core, hmax]
  rw [if_neg (by linarith)]
  rw [show (0 : ℚ) / hpd = 0 by simp]
  rw [apply_work_date_interval_nonpos (le_refl 0), hwdc]
  rw [qmod_zero_left, sub_zero, qmod_self, round3_zero]

/-- A qualifying work day is a fixed point of the core computation when
no hours remain. -/
theorem ship_date_core_fix {wd hol : List ℤ} {hours hpd : ℚ} {d : ℤ}
    (hh : hours ≤ 0) (hpos : 0 < hpd) (h1 : d % 7 ∈ wd) (h2 : d ∉ hol) :
    ship_date_core wd hours hpd d hol = .ok (d, 0) :=
  ship_date_core_nonpos hh hpos (work_date_ceil_self h1 h2)

/-! ### Termination of the event-adjustment recursion -/

/-- Events strictly after `s` split into those in the window `(s, m]`
and those strictly after `m`. -/
theorem filter_window_split (events : List Event) {s m : ℤ} (hsm : s ≤ m) :
    (events.filter fun e => s < e.date).length =
    (events.filter fun e => s < e.date ∧ e.date ≤ m).length +
    (events.filter fun e => m < e.date).length := by
  induction events with
  | nil => simp
  | cons e rest ih =>
    simp only [List.filter_cons]
    by_cases h1 : s < e.date
    · by_cases h2 : e.date ≤ m
      · have h3 : ¬m < e.date := not_lt.2 h2
        simp [h1, h2, h3, ih]
        omega
      · have h3 : m < e.date := not_le.1 h2
        simp [h1, h2, h3, ih]
        omega
    · have h2 : ¬m < e.date := fun hc => h1 (lt_of_le_of_lt hsm hc)
      have h3 : ¬(s < e.date ∧ e.date ≤ m) := fun hc => h1 hc.1
      simp [h1, h2, h3, ih]

/-- Fuel bound for `_add_events`: the number of events dated after the
window start, plus one step to land on a default work day and one to
confirm the fixed point, always suffices. -/
theorem add_events_enough {events : List Event} {hpd : ℚ} {hol : List ℤ} :
    ∀ (fuel : ℕ) (start stop : ℤ) (rem : ℚ), 0 ≤ rem → start ≤ stop →
      (events.filter fun e => start < e.date).length +
        (if stop % 7 ∈ defaultWorkDays ∧ stop ∉ hol then 1 else 2) ≤ fuel →
      ∃ r, add_events events hpd hol fuel start stop rem = some r := by
  intro fuel
  induction fuel with
  | zero =>
    intro start stop rem _ _ hmeas
    split at hmeas <;> omega
  | succ fuel ih =>
    intro start stop rem hrem hss hmeas
    simp only [add_events]
    split
    · exact ⟨_, rfl⟩
    · rename_i res new_end new_rem heq
      by_cases hne : new_end = stop
      · rw [if_pos hne]
        exact ⟨_, rfl⟩
      · rw [if_neg hne]
        have hcore := ship_date_core_ok heq
        have hq : new_end % 7 ∈ defaultWorkDays ∧ new_end ∉ hol :=
          ship_date_core_ok_qualifies heq
        have hle : stop ≤ new_end := ship_date_core_ok_le heq
        have hnn : 0 ≤ new_rem := ship_date_core_ok_rem_nonneg heq
        refine ih stop new_end new_rem hnn hle ?_
        rw [if_pos hq]
        rw [filter_window_split events hss] at hmeas
        split at hmeas
        · rename_i hqstop
          -- the window must contain an event, otherwise `stop` would
          -- already be the fixed point
          have hwin :
              (events.filter fun e => start < e.date ∧ e.date ≤ stop) ≠
                [] := by
            intro hnil
            rw [hnil] at heq
            simp only [List.map_nil, List.sum_nil, zero_sub] at heq
            rw [ship_date_core_fix (by linarith) hcore.1 hqstop.1 hqstop.2]
              at heq
            simp only [Except.ok.injEq, Prod.mk.injEq] at heq
            exact hne heq.1.symm
          have hpos :
              1 ≤ (events.filter fun e =>
                start < e.date ∧ e.date ≤ stop).length :=
            List.length_pos.2 hwin
          omega
        · omega

/-- Termination bound for the full `ship_date`: fuel
`len(events) + 2` always produces a result (a value or a raised
error), never fuel exhaustion. -/
theorem ship_date_terminates
    (work_days : List ℤ) (hours : ℚ) (events : List Event)
    (hours_per_day : ℚ) (start_date : ℤ) (holidays : List ℤ) :
    ∃ r, ship_date (events.length + 2) work_days hours events
      hours_per_day start_date holidays = some r := by
  simp only [ship_date]
  split
  · exact ⟨_, rfl⟩
  · rename_i res ship remaining heq
    split
    · exact ⟨_, rfl⟩
    · refine add_events_enough _ start_date ship remaining
        (ship_date_core_ok_rem_nonneg heq) (ship_date_core_ok_le heq) ?_
      have h1 : (events.filter fun e => start_date < e.date).length ≤
          events.length := List.length_filter_le _ _
      split <;> omega

/-! ### Claim theorems -/

/-- C1: the recursive event-adjustment recomputation does NOT use the
caller's work-days set.  `_add_events` omits `work_days` from the
nested `ship_date` call, which therefore runs with the default
Monday-to-Friday set.  At the failing input (work-days = Sunday only,
start = a Sunday (day 6), zero hours, one event of cost 8 on the
Monday (day 7), 8 hours per day, no holidays) the code returns day 8 —
not even a work day of the caller's set — whereas the variant that
propagates the work-days set, as the claim and spec describe, returns
day 6. -/
theorem shipDate_nested_call_drops_work_days :
    ship_date 5 [6] 0 [⟨7, 8⟩] 8 6 [] = some (.ok (8, 0)) ∧
    ship_date_claimed 5 [6] 0 [⟨7, 8⟩] 8 6 [] = some (.ok (6, 0)) ∧
    (8 : ℤ) % 7 ∉ [(6 : ℤ)] := by
  refine ⟨?_, ?_, by decide⟩ <;>
    norm_num [ship_date, ship_date_claimed, add_events, add_events_claimed,
      ship_date_core, apply_work_date_interval, work_date_ceil, wdc_scan,
      awdi_loop, qmod, round3, round_eq, defaultWorkDays]

/-- C2 counterexample: the `7 + len(holidays)` scan bound is not
sufficient for every holiday set.  With work-days `[0]` (Mondays, a
non-empty valid set, as the second conjunct shows) and seven holidays
covering both Mondays of the 14-day window, the scan fails and the
`ValueError` branch is reached. -/
theorem work_date_ceil_bound_counterexample :
    work_date_ceil 0 [0] [0, 7, 1, 2, 3, 4, 5] = none ∧
    work_date_ceil 0 [0] [] = some 0 := by
  decide

/-- C2 (amended): `work_date_ceil` finds a qualifying date within the
`7 + len(holidays)` bound whenever the work-days set contains an
actual weekday value and no holiday falls on a weekday in the
work-days set; the error branch can additionally be reached, despite a
valid non-empty work-days set, when holidays cover every candidate
work day in the scan window. -/
theorem work_date_ceil_finds (d : ℤ) (W hol : List ℤ) (w : ℤ)
    (hw : w ∈ W) (hw0 : 0 ≤ w) (hw7 : w < 7)
    (hhol : ∀ h ∈ hol, h % 7 ∉ W) :
    ∃ d2, work_date_ceil d W hol = some d2 := by
  have h7 : (0 : ℤ) < 7 := by norm_num
  set j : ℕ := ((w - d) % 7).toNat with hj
  have hjeq : (j : ℤ) = (w - d) % 7 :=
    Int.toNat_of_nonneg (Int.emod_nonneg _ (by norm_num))
  have hj7 : j < 7 := by
    have := Int.emod_lt_of_pos (w - d) h7
    omega
  have hweek : (d + (0 : ℕ) + (j : ℤ)) % 7 = w := by
    push_cast
    rw [add_zero, hjeq, Int.add_emod, Int.emod_emod_of_dvd _ dvd_rfl,
      ← Int.add_emod]
    rw [show d + (w - d) = w by ring]
    exact Int.emod_eq_of_lt hw0 hw7
  have hmem : (d + (0 : ℕ) + (j : ℤ)) % 7 ∈ W := by rw [hweek]; exact hw
  have hnh : (d + (0 : ℕ) + (j : ℤ)) ∉ hol := by
    intro hc
    exact hhol _ hc (by rw [hweek]; exact hw)
  exact wdc_scan_isSome (n := 7 + hol.length) (by omega) hmem hnh

/-- Witness for `work_date_ceil_finds`. -/
theorem work_date_ceil_finds_witness :
    ((0 : ℤ) ∈ [(0 : ℤ)]) ∧ (∀ h ∈ ([6] : List ℤ), h % 7 ∉ [(0 : ℤ)]) ∧
    ∃ d2, work_date_ceil 3 [0] [6] = some d2 :=
  ⟨by decide, by decide,
    work_date_ceil_finds 3 [0] [6] 0 (by decide) (by decide) (by decide)
      (by decide)⟩

/-- C7 counterexample: with a non-empty event sequence, non-positive
hours do NOT always yield `(nextWorkDate(start), 0)`.  Starting on a
Saturday (day 5) with default work days, zero hours, 8 hours per day
and one event of cost 8 on the Monday (day 7), the code returns day 8,
while `nextWorkDate(5)` is day 7. -/
theorem shipDate_nonpos_hours_events_counterexample :
    ship_date 5 defaultWorkDays 0 [⟨7, 8⟩] 8 5 [] = some (.ok (8, 0)) ∧
    work_date_ceil 5 defaultWorkDays [] = some 7 ∧ (8 : ℤ) ≠ 7 := by
  refine ⟨?_, by decide, by decide⟩
  norm_num [ship_date, add_events, ship_date_core, apply_work_date_interval,
    work_date_ceil, wdc_scan, awdi_loop, qmod, round3, round_eq,
    defaultWorkDays]

/-- C7 (amended): with an EMPTY event sequence, for every start date,
positive hours-per-day, work-days set and holiday set on which the
work-date scan succeeds, `ship_date` with non-positive hours returns
the pair of `work_date_ceil start` and zero remaining hours. -/
theorem shipDate_nonpos_hours_no_events (fuel : ℕ) (wd hol : List ℤ)
    (hours hpd : ℚ) (start d : ℤ) (hh : hours ≤ 0) (hpos : 0 < hpd)
    (hwdc : work_date_ceil start wd hol = some d) :
    ship_date fuel wd hours [] hpd start hol = some (.ok (d, 0)) := by
  simp [ship_date, ship_date_core_nonpos hh hpos hwdc]

/-- Witness for `shipDate_nonpos_hours_no_events`. -/
theorem shipDate_nonpos_hours_no_events_witness :
    ((0 : ℚ) ≤ 0) ∧ ((0 : ℚ) < 1) ∧
    work_date_ceil 0 defaultWorkDays [] = some 0 ∧
    ship_date 3 defaultWorkDays 0 [] 1 0 [] = some (.ok (0, 0)) :=
  ⟨le_refl 0, by norm_num, by decide,
    shipDate_nonpos_hours_no_events 3 defaultWorkDays [] 0 1 0 0
      (le_refl 0) (by norm_num) (by decide)⟩

/-- C8: `apply_work_date_interval` is monotone in the interval: for
the same start date, work-days set and holiday set, a smaller interval
never yields a later date. -/
theorem advanceWorkDays_mono (wd hol : List ℤ) (s : ℤ) (i1 i2 : ℚ)
    (d1 d2 : ℤ) (hi : i1 ≤ i2)
    (h1 : apply_work_date_interval wd s i1 hol = some d1)
    (h2 : apply_work_date_interval wd s i2 hol = some d2) : d1 ≤ d2 :=
  apply_work_date_interval_mono hi h1 h2

/-- Witness for `advanceWorkDays_mono`. -/
theorem advanceWorkDays_mono_witness :
    ((0 : ℚ) ≤ 1) ∧
    apply_work_date_interval defaultWorkDays 0 0 [] = some 0 ∧
    apply_work_date_interval defaultWorkDays 0 1 [] = some 1 ∧
    (0 : ℤ) ≤ 1 := by
  have e1 : apply_work_date_interval defaultWorkDays 0 0 [] = some 0 := by
    norm_num [apply_work_date_interval, work_date_ceil, wdc_scan, awdi_loop,
      defaultWorkDays]
  have e2 : apply_work_date_interval defaultWorkDays 0 1 [] = some 1 := by
    norm_num [apply_work_date_interval, work_date_ceil, wdc_scan, awdi_loop,
      defaultWorkDays]
  exact ⟨by norm_num, e1, e2,
    advanceWorkDays_mono defaultWorkDays [] 0 0 1 0 1 (by norm_num) e1 e2⟩

/-- C9: the event-adjustment recursion always reaches its result
within `len(events) + 2` recursive steps — fuel `len(events) + 2`
never exhausts, for every hours value, hours-per-day, start date,
event sequence and holiday set — so the ship-date projection always
terminates. -/
theorem projectShipDate_terminates (work_days : List ℤ) (hours : ℚ)
    (events : List Event) (hours_per_day : ℚ) (start_date : ℤ)
    (holidays : List ℤ) :
    ∃ r, ship_date (events.length + 2) work_days hours events
      hours_per_day start_date holidays = some r :=
  ship_date_terminates work_days hours events hours_per_day start_date
    holidays

/-- C10: whenever `apply_work_date_interval` returns normally, the
returned date has its weekday in the work-days set and is not a
holiday; consequently the date component returned by `ship_date` for a
call with no events is itself a qualifying work day. -/
theorem advanceWorkDays_shipDate_qualifying :
    (∀ (wd hol : List ℤ) (s : ℤ) (i : ℚ) (d : ℤ),
      apply_work_date_interval wd s i hol = some d →
      d % 7 ∈ wd ∧ d ∉ hol) ∧
    (∀ (fuel : ℕ) (wd hol : List ℤ) (hours hpd : ℚ) (s d : ℤ) (r : ℚ),
      ship_date fuel wd hours [] hpd s hol = some (.ok (d, r)) →
      d % 7 ∈ wd ∧ d ∉ hol) := by
  constructor
  · intro wd hol s i d h
    exact apply_work_date_interval_qualifies h
  · intro fuel wd hol hours hpd s d r h
    simp only [ship_date] at h
    split at h
    · exact absurd h (by simp)
    · rename_i res ship remaining heq
      simp only [if_true, Option.some.injEq, Except.ok.injEq,
        Prod.mk.injEq] at h
      obtain ⟨rfl, -⟩ := h
      exact ship_date_core_ok_qualifies heq

/-- Witness for `advanceWorkDays_shipDate_qualifying`. -/
theorem advanceWorkDays_shipDate_qualifying_witness :
    apply_work_date_interval defaultWorkDays 0 0 [] = some 0 ∧
    ((0 : ℤ) % 7 ∈ defaultWorkDays ∧ (0 : ℤ) ∉ ([] : List ℤ)) := by
  have e1 : apply_work_date_interval defaultWorkDays 0 0 [] = some 0 := by
    norm_num [apply_work_date_interval, work_date_ceil, wdc_scan, awdi_loop,
      defaultWorkDays]
  exact ⟨e1, advanceWorkDays_shipDate_qualifying.1 defaultWorkDays [] 0 0 0 e1⟩

/-- C3 (code bug): `stddev_velocity` is not wrapped in `_fn_velocity`
and calls `mean_velocity()` without the filter arguments, so with one
completed task (estimate 1, actual 1, dated day 0), queried on day 100
with a 30-day maximum age, the filtered velocity sequence is empty but
the method raises an uncaught `ZeroDivisionError` instead of
`NoHistoryError` — while `mean_velocity` with the same filters raises
`NoHistoryError` as the claim requires. -/
theorem stddev_velocity_uncaught_zero_division :
    stddev_velocity 100 [{ estimate := 1, date := some 0, actual := 1 }]
        (some 30) = .error .zeroDivision ∧
    velocities 100 [{ estimate := 1, date := some 0, actual := 1 }]
        (some 30) = [] ∧
    mean_velocity 100 [{ estimate := 1, date := some 0, actual := 1 }]
        (some 30) = .error .noHistory := by
  norm_num [stddev_velocity, mean_velocity, velocities, stale,
    Task.completed]

/-- C4 counterexample: with exponent 2 the ten emitted rows are
labelled 9, 19, ..., 99 by the formula `(i+1) / 10^(exp-2) - 1`, not
10, 20, ..., 100 as the claim's final clause asserts. -/
theorem estimate_rows_label_counterexample :
    (estimate_rows 2 ((List.range 100).map Int.ofNat)).map Prod.fst =
      [9, 19, 29, 39, 49, 59, 69, 79, 89, 99] ∧ (9 : ℤ) ≠ 10 := by
  decide

/-- Helper: `List.range'` with step expressed through `List.range`. -/
theorem range'_eq_map (step : ℕ) :
    ∀ (n s : ℕ), List.range' s n step =
      (List.range n).map fun k => s + step * k := by
  intro n
  induction n with
  | zero => intro s; simp
  | succ n ih =>
    intro s
    rw [List.range'_succ, List.range_succ_eq_map, List.map_cons,
      List.map_map, ih (s + step)]
    have hfun : (fun (k : ℕ) => s + step + step * k) =
        ((fun (k : ℕ) => s + step * k) ∘ Nat.succ) := by
      funext k
      simp only [Function.comp_apply, Nat.succ_eq_add_one]
      ring
    rw [hfun]
    simp

/-- C4 (amended): for every exponent at least 2 the report emits
exactly ten rows, the `k`-th (k = 0..9) at sorted index
`10^(exp-1) - 1 + k * 10^(exp-1)` with percentile label `10*k + 9`
(9, 19, ..., 99) — the value of the formula `(i+1)/10^(exp-2) - 1`,
which at exponent 2 equals `i`, not `i + 1`. -/
theorem estimate_rows_formula (e : ℕ) (he : 2 ≤ e) (dates : List ℤ) :
    estimate_rows e dates = (List.range 10).map fun (k : ℕ) =>
      (10 * (k : ℤ) + 9,
        dates.getD (10 ^ (e - 1) - 1 + k * 10 ^ (e - 1)) 0) := by
  have hP : 0 < 10 ^ (e - 1) := Nat.pos_pow_of_pos _ (by norm_num)
  have hQZ : (0 : ℤ) < 10 ^ (e - 2) := pow_pos (by norm_num) _
  have hPQZ : (10 : ℤ) ^ (e - 1) = 10 ^ (e - 2) * 10 := by
    rw [← pow_succ]
    congr 1
    omega
  have hcount :
      (10 ^ e - (10 ^ (e - 1) - 1) + 10 ^ (e - 1) - 1) / 10 ^ (e - 1) =
        10 := by
    have h10 : (10 : ℕ) ^ e = 10 ^ (e - 1) * 10 := by
      rw [← pow_succ]
      congr 1
      omega
    rw [show (10 : ℕ) ^ e - (10 ^ (e - 1) - 1) + 10 ^ (e - 1) - 1 =
      10 ^ (e - 1) * 10 from by omega]
    exact Nat.mul_div_cancel_left 10 hP
  simp only [estimate_rows, xrange, hcount, range'_eq_map, List.map_map]
  congr 1
  funext k
  simp only [Function.comp_apply, Prod.mk.injEq]
  refine ⟨?_, by rw [Nat.mul_comm]⟩
  have hcast : ((10 ^ (e - 1) - 1 + 10 ^ (e - 1) * k : ℕ) : ℤ) =
      (10 : ℤ) ^ (e - 1) - 1 + 10 ^ (e - 1) * k := by
    have h1 : 1 ≤ 10 ^ (e - 1) := hP
    push_cast [h1]
    ring
  rw [hcast]
  rw [show (10 : ℤ) ^ (e - 1) - 1 + 10 ^ (e - 1) * k + 1 =
    ((1 + k) * 10) * 10 ^ (e - 2) from by rw [hPQZ]; ring]
  rw [Int.mul_ediv_cancel _ (by exact_mod_cast hQZ.ne')]
  ring

/-- Witness for `estimate_rows_formula`. -/
theorem estimate_rows_formula_witness :
    2 ≤ 2 ∧ estimate_rows 2 [] = (List.range 10).map fun (k : ℕ) =>
      (10 * (k : ℤ) + 9, ([] : List ℤ).getD (10 - 1 + k * 10) 0) := by
  refine ⟨le_refl 2, ?_⟩
  have h := estimate_rows_formula 2 (le_refl 2) []
  simpa using h

/-- C5 counterexample: a zero `timedelta` passed as `max_age` is falsy
in Python, so the age filter is skipped entirely: with one completed
task dated day 0, queried on day 100 with `max_age` given as zero, the
source keeps the task although `100 - 0 > |0|`, while the claim's
reading (excluded whenever `maxAge` is given) drops it. -/
theorem velocities_zero_max_age_counterexample :
    velocities 100 [{ estimate := 1, date := some 0, actual := 1 }]
      (some 0) = [1] ∧
    velocities_claimed 100 [{ estimate := 1, date := some 0, actual := 1 }]
      (some 0) = [] := by
  norm_num [velocities, velocities_claimed, stale, Task.completed]

/-- C5 (amended): over tasks with non-negative costs, `velocities`
returns, in task order, `estimate / actual` for exactly the tasks with
`actual > 0` and `estimate > 0`, excluding — only when `maxAge` is
given AND non-zero and the task has a recorded date — tasks with
`today - date > abs(maxAge)`. -/
theorem velocities_eq_amended (today : ℤ) (tasks : List Task)
    (ma : Option ℤ) (h : ∀ t ∈ tasks, 0 ≤ t.estimate ∧ 0 ≤ t.actual) :
    velocities today tasks ma = velocities_amended today tasks ma := by
  unfold velocities velocities_amended
  rw [List.filter_filter]
  refine congrArg (List.map _) (List.filter_congr ?_)
  intro t ht
  obtain ⟨he, ha⟩ := h t ht
  have ha1 : (0 < t.actual) = (t.actual ≠ 0) :=
    propext ⟨fun hlt => hlt.ne', fun hne => ha.lt_of_ne (Ne.symm hne)⟩
  have he1 : (0 < t.estimate) = (t.estimate ≠ 0) :=
    propext ⟨fun hlt => hlt.ne', fun hne => he.lt_of_ne (Ne.symm hne)⟩
  cases hma : ma <;> cases hd : t.date <;>
    simp [stale, Task.completed, hd, ha1, he1, Bool.and_comm,
      Bool.and_assoc, Bool.and_left_comm]

/-- Witness for `velocities_eq_amended`. -/
theorem velocities_eq_amended_witness :
    (∀ t ∈ [({ estimate := 1, actual := 1 } : Task)],
      0 ≤ t.estimate ∧ 0 ≤ t.actual) ∧
    velocities 0 [{ estimate := 1, actual := 1 }] none =
      velocities_amended 0 [{ estimate := 1, actual := 1 }] none := by
  have h : ∀ t ∈ [({ estimate := 1, actual := 1 } : Task)],
      0 ≤ t.estimate ∧ 0 ≤ t.actual := by
    intro t ht
    simp only [List.mem_singleton] at ht
    subst ht
    norm_num
  exact ⟨h, velocities_eq_amended 0 _ none h⟩

/-- C6 counterexample: a zero priority threshold is falsy in Python,
so the source applies no priority filter at all: with a pending task
of priority 5 and threshold 0, the task is kept (output size 1)
although the claim's rule (excluded iff a priority is set and greater
than the threshold) would exclude it (surviving count 0). -/
theorem simulate_future_zero_priority_counterexample :
    simulate_future 0
      [{ estimate := 2, actual := 2 }, { priority := some 5, estimate := 8 }]
      none (some 0) (fun _ => 0) = .ok [8] ∧
    (([{ estimate := 2, actual := 2 },
        { priority := some 5, estimate := 8 }] : List Task).filter
          (fun t => !t.completed)).filter
      (fun t => !priority_excluded_claimed (some 0) t) = [] := by
  constructor
  · norm_num [simulate_future, velocities, stale, Task.completed,
      priority_excluded, List.enum]
  · norm_num [Task.completed, priority_excluded_claimed]

/-- C6 (amended): whenever the velocity history is non-empty,
`simulate_future` returns (without error) one projected value per
pending task surviving the priority filter, where a pending task is
excluded iff the threshold is given and non-zero, the task has a
non-zero priority set, and that priority is numerically greater than
the threshold; the output size equals the count of surviving pending
tasks. -/
theorem simulate_future_size (today : ℤ) (tasks : List Task)
    (ma pr : Option ℤ) (pick : ℕ → ℕ)
    (h : velocities today tasks ma ≠ []) :
    ∃ l, simulate_future today tasks ma pr pick = .ok l ∧
      l.length = ((tasks.filter fun t => !t.completed).filter fun t =>
        !(match pr, t.priority with
          | some p, some q => p ≠ 0 && q ≠ 0 && q > p
          | _, _ => false)).length := by
  have hcond : ¬((((tasks.filter fun t => !t.completed).filter
      fun t => !priority_excluded pr t) ≠ []) ∧
      velocities today tasks ma = []) := fun hc => h hc.2
  simp only [simulate_future]
  rw [if_neg hcond]
  refine ⟨_, rfl, ?_⟩
  simp [priority_excluded]

/-- Witness for `simulate_future_size`. -/
theorem simulate_future_size_witness :
    velocities 0 [{ estimate := 2, actual := 2 }, { estimate := 8 }]
      none ≠ [] ∧
    ∃ l, simulate_future 0
        [{ estimate := 2, actual := 2 }, { estimate := 8 }] none none
        (fun _ => 0) = .ok l ∧
      l.length = ((([{ estimate := 2, actual := 2 },
          { estimate := 8 }] : List Task).filter
            fun t => !t.completed).filter fun t =>
        !(match (none : Option ℤ), t.priority with
          | some p, some q => p ≠ 0 && q ≠ 0 && q > p
          | _, _ => false)).length := by
  have h : velocities 0 [{ estimate := 2, actual := 2 },
      { estimate := 8 }] none ≠ [] := by
    norm_num [velocities, stale, Task.completed]
  exact ⟨h, simulate_future_size 0 _ none none (fun _ => 0) h⟩

end Ebs
